import Mathlib

/-!
# Verification of the DataOps pipeline

Shallow embedding of the DataOps repository (ingest.py, validate.py,
transform.py) and proofs of the specification claims about it.

Modelling conventions:
* A CSV cell that holds a number is an `Option ℚ` (`none` = NaN / empty).
* A date is a `Nat` counting days since 1970-01-01 (pandas timestamps at
  day granularity); an unparsed date cell is an `Option Nat`.
* `pd.DataFrame` becomes `List Row` over the fixed measurement schema of
  the repository (date, meantemp, humidity, wind_speed, meanpressure).
* `df.sort_values(date)` is modelled as a sort by date
  (`List.insertionSort`).  pandas' default `kind='quicksort'` does not
  guarantee the relative order of rows with equal dates, so no theorem
  below relies on the tie order; the stable insertion sort is merely one
  concrete resolution of that implementation-defined order.
* pandas' NaT error path on the empty frame is kept: `run_checks` raises
  at `pd.date_range(start=NaT, end=NaT)` when the frame has no rows, so
  the process dies with exit code 1 and writes nothing; `runPipeline`
  models this branch explicitly, and the `minDate`/`maxDate` defaults on
  `[]` are never reached along the modelled pipeline.
* File-system effects (what gets written, process exit codes) are made
  explicit in result structures (`PipelineResult`, `IngestResult`).
-/

namespace DataOps

/-- The four numeric measurement columns of the dataset
(validate.py, VALUE_RANGES / tests). -/
inductive Col : Type
  | meantemp
  | humidity
  | wind_speed
  | meanpressure
deriving DecidableEq, Repr, Fintype

/-- Iteration order over the numeric columns, as in `VALUE_RANGES`. -/
def colList : List Col := [.meantemp, .humidity, .wind_speed, .meanpressure]

/-- `VALUE_RANGES` from validate.py: per column `(min, max, hard_fail)`. -/
def VALUE_RANGES : Col → Int × Int × Bool
  | .meantemp => (-20, 55, true)
  | .humidity => (0, 100, true)
  | .wind_speed => (0, 50, false)
  | .meanpressure => (900, 1100, false)

/-- One parsed record: a date plus the four (nullable) measurements. -/
structure Row : Type where
  date : Nat
  meantemp : Option ℚ
  humidity : Option ℚ
  wind_speed : Option ℚ
  meanpressure : Option ℚ
deriving DecidableEq, Repr

/-- One raw bronze record: the date cell may fail to parse
(`pd.to_datetime(..., errors="coerce")` yields NaT = `none`). -/
structure RawRow : Type where
  date : Option Nat
  meantemp : Option ℚ
  humidity : Option ℚ
  wind_speed : Option ℚ
  meanpressure : Option ℚ
deriving DecidableEq, Repr

def Row.get (r : Row) : Col → Option ℚ
  | .meantemp => r.meantemp
  | .humidity => r.humidity
  | .wind_speed => r.wind_speed
  | .meanpressure => r.meanpressure

def Row.set (r : Row) : Col → Option ℚ → Row
  | .meantemp, v => { r with meantemp := v }
  | .humidity, v => { r with humidity := v }
  | .wind_speed, v => { r with wind_speed := v }
  | .meanpressure, v => { r with meanpressure := v }

/-- The validation report (validate.py `report` dict).  Fields are
`Option`s because the dict is filled incrementally; a field that was not
yet reached when the run aborted stays `none` (a "partial" report). -/
structure Report : Type where
  duplicates_found : Option Nat := none
  missing_dates : Option Nat := none
  value_range_violations : Option (List (Col × Nat × Nat)) := none
  value_range_warnings : Option (List (Col × Nat × Nat)) := none
  rows_in : Option Nat := none
  duplicates_removed : Option Nat := none
  missing_dates_filled : Option Nat := none
  missing_values_imputed : Option Nat := none
  rows_out : Option Nat := none
  validation_passed : Option Bool := none
deriving DecidableEq, Repr

/-! ## Checks (validate.py `run_checks`) -/

/-- Number of values in column `c` strictly below the configured minimum;
`none` (NaN) never counts (`(series < min_val) & series.notna()`). -/
def countBelow (c : Col) (df : List Row) : Nat :=
  df.countP fun r =>
    match r.get c with
    | some v => decide (v < ((VALUE_RANGES c).1 : ℚ))
    | none => false

/-- Number of values in column `c` strictly above the configured maximum. -/
def countAbove (c : Col) (df : List Row) : Nat :=
  df.countP fun r =>
    match r.get c with
    | some v => decide (((VALUE_RANGES c).2.1 : ℚ) < v)
    | none => false

/-- The value-range loop of `run_checks`: returns
`(all_ok, value_range_violations, value_range_warnings)`. -/
def checkRanges (df : List Row) : List Col → Bool × List (Col × Nat × Nat) × List (Col × Nat × Nat)
  | [] => (true, [], [])
  | c :: cs =>
    let rest := checkRanges df cs
    let nlo := countBelow c df
    let nhi := countAbove c df
    if 0 < nlo ∨ 0 < nhi then
      if (VALUE_RANGES c).2.2 then (false, (c, nlo, nhi) :: rest.2.1, rest.2.2)
      else (rest.1, rest.2.1, (c, nlo, nhi) :: rest.2.2)
    else rest

/-- Sort by date, modelling `df.sort_values(date_col)`.  pandas' default
quicksort leaves the order of equal dates implementation-defined; the
insertion sort here fixes one such order, and no theorem in this file
depends on which rows of a duplicated date come first. -/
def sortByDate (df : List Row) : List Row :=
  List.insertionSort (fun a b => a.date ≤ b.date) df

/-- `df.drop_duplicates(subset=[date_col], keep="first")`: keep a row iff
its date has not been seen in an earlier row. -/
def dedupFirstAux (seen : List Nat) : List Row → List Row
  | [] => []
  | r :: rest =>
    if r.date ∈ seen then dedupFirstAux seen rest
    else r :: dedupFirstAux (r.date :: seen) rest

def dedupFirst (df : List Row) : List Row := dedupFirstAux [] df

/-- The minimum of the date column (`df[date_col].min()`) of a
non-empty frame.  On the empty frame pandas returns NaT and the
`pd.date_range` fed with it raises — that error path is modelled in
`runPipeline`, so the 0 returned here for `[]` lies outside the
modelled domain and is unreachable along the pipeline. -/
def minDate : List Row → Nat
  | [] => 0
  | [r] => r.date
  | r :: s :: rest => min r.date (minDate (s :: rest))

/-- The maximum of the date column (`df[date_col].max()`) of a
non-empty frame; the NaT-on-empty error path is modelled in
`runPipeline` exactly as for `minDate`. -/
def maxDate : List Row → Nat
  | [] => 0
  | [r] => r.date
  | r :: s :: rest => max r.date (maxDate (s :: rest))

/-- `pd.date_range(start=lo, end=hi, freq="D")`: empty when `hi < lo`. -/
def fullRange (lo hi : Nat) : List Nat :=
  (List.range (hi + 1 - lo)).map fun i => lo + i

/-- The all-NaN row that `df.reindex` inserts for an absent date. -/
def emptyRow (d : Nat) : Row := ⟨d, none, none, none, none⟩

/-- `df.set_index(date).reindex(full_range).reset_index()`: one row per
requested day, the existing row when present, an all-NaN row otherwise.
(The frame it is applied to has pairwise distinct dates.) -/
def reindex (df : List Row) (days : List Nat) : List Row :=
  days.map fun d => (df.find? fun r => r.date == d).getD (emptyRow d)

/-- Null out a soft-range cell that is outside `[lo, hi]`
(`df.loc[mask, col] = nan` with `mask = (df[col] < lo) | (df[col] > hi)`;
NaN compares false, so `none` stays `none`). -/
def nullSoftVal (lo hi : Int) (v : Option ℚ) : Option ℚ :=
  match v with
  | none => none
  | some x => if x < (lo : ℚ) ∨ (hi : ℚ) < x then none else some x

/-- The soft-range replacement loop of `clean_data`: of the columns in
`VALUE_RANGES` exactly `wind_speed` `[0, 50]` and `meanpressure`
`[900, 1100]` have `hard_fail = False`, so only those two are nulled. -/
def nullSoftRow (r : Row) : Row :=
  { r with wind_speed := nullSoftVal 0 50 r.wind_speed,
           meanpressure := nullSoftVal 900 1100 r.meanpressure }

def nullSoft (df : List Row) : List Row := df.map nullSoftRow

/-- Forward fill one column (`df[col].ffill()`), carrying the last seen
non-null value. -/
def ffillAux (c : Col) (carry : Option ℚ) : List Row → List Row
  | [] => []
  | r :: rest =>
    match r.get c with
    | some v => r :: ffillAux c (some v) rest
    | none => r.set c carry :: ffillAux c carry rest

/-- The head value of column `c`. -/
def headVal (c : Col) : List Row → Option ℚ
  | [] => none
  | r :: _ => r.get c

/-- Backward fill one column (`df[col].bfill()`): a null takes the
nearest following non-null value. -/
def bfillCol (c : Col) : List Row → List Row
  | [] => []
  | r :: rest =>
    let rest' := bfillCol c rest
    match r.get c with
    | some _ => r :: rest'
    | none => r.set c (headVal c rest') :: rest'

/-- `ffill` then `bfill` on one column.  The frame-level
`df[numeric_cols].ffill().bfill()` acts on every column independently,
so it is the composition of `imputeCol` over the columns. -/
def imputeCol (c : Col) (df : List Row) : List Row :=
  bfillCol c (ffillAux c none df)

def imputeAll (df : List Row) : List Row :=
  colList.foldl (fun d c => imputeCol c d) df

/-- Total number of missing cells over the numeric columns
(`missing_before` totals in `clean_data`). -/
def missingCount (df : List Row) : Nat :=
  colList.foldl (fun n c => n + df.countP fun r => (r.get c).isNone) 0

/-- numpy / pandas round-half-to-even of a rational to an integer. -/
def roundHalfEven (q : ℚ) : Int :=
  let f := ⌊q⌋
  if q - (f : ℚ) < 1/2 then f
  else if 1/2 < q - (f : ℚ) then f + 1
  else if f % 2 = 0 then f else f + 1

/-- `Series.round(2)`: round to two decimal places. -/
def round2 (q : ℚ) : ℚ := (roundHalfEven (q * 100) : ℚ) / 100

/-- A rational expressible with at most two decimal places. -/
def isRounded2 (q : ℚ) : Prop := ∃ n : ℤ, q * 100 = (n : ℚ)

/-- `df[numeric_cols].round(2)` applied to one row. -/
def roundRow (r : Row) : Row :=
  ⟨r.date, r.meantemp.map round2, r.humidity.map round2,
   r.wind_speed.map round2, r.meanpressure.map round2⟩

def roundAll (df : List Row) : List Row := df.map roundRow

/-- `run_checks` (validate.py): fills the diagnostic counts of the
report and returns `False` iff a hard-fail range violation occurred.
On the empty frame the real function never returns: it raises at
`pd.date_range(start=NaT, end=NaT)`; that branch is modelled at the
call site in `runPipeline`, and this function is its value on
non-empty frames. -/
def run_checks (df : List Row) (report : Report) : Bool × Report :=
  let dupRows := df.countP fun r => 1 < df.countP fun x => x.date == r.date
  let deduped := dedupFirst (sortByDate df)
  let missing := (fullRange (minDate deduped) (maxDate deduped)).filter
    fun d => ¬ deduped.any fun r => r.date == d
  let ranges := checkRanges df colList
  (ranges.1,
   { report with
       duplicates_found := some dupRows
       missing_dates := some missing.length
       value_range_violations := some ranges.2.1
       value_range_warnings := some ranges.2.2 })

/-- `clean_data` (validate.py): sort, drop duplicate dates keeping the
first, reindex onto the full daily range, null soft-range violations,
impute by ffill-then-bfill, round to 2 decimals. -/
def clean_data (df : List Row) (report : Report) : List Row × Report :=
  let report := { report with rows_in := some df.length }
  let sorted := sortByDate df
  let deduped := dedupFirst sorted
  let report := { report with duplicates_removed := some (sorted.length - deduped.length) }
  let days := fullRange (minDate deduped) (maxDate deduped)
  let reindexed := reindex deduped days
  let report := { report with missing_dates_filled := some (days.length - deduped.length) }
  let nulled := nullSoft reindexed
  let m := missingCount nulled
  let imputed := if 0 < m then imputeAll nulled else nulled
  let report := { report with missing_values_imputed := some m }
  let report := { report with rows_out := some imputed.length }
  (roundAll imputed, report)

/-! ## Derived features (validate.py `add_derived_features`) -/

/-- `pd.to_datetime(date).dt.dayofyear` for a day count since
1970-01-01 (proleptic Gregorian; civil-from-days algorithm). -/
def dayOfYear (z : Nat) : Nat :=
  let days := z + 719468
  let era := days / 146097
  let doe := days % 146097
  let yoe := (doe - doe / 1460 + doe / 36524 - doe / 146097) / 365
  let doy := doe - (365 * yoe + yoe / 4 - yoe / 100)
  let mp := (5 * doy + 2) / 153
  let dd := doy - (153 * mp + 2) / 5 + 1
  let m := if mp < 10 then mp + 3 else mp - 9
  let y := yoe + era * 400 + (if m ≤ 2 then 1 else 0)
  let leap : Bool := (y % 4 == 0 && y % 100 != 0) || y % 400 == 0
  let before :=
    match m with
    | 1 => 0 | 2 => 31 | 3 => 59 | 4 => 90 | 5 => 120 | 6 => 151
    | 7 => 181 | 8 => 212 | 9 => 243 | 10 => 273 | 11 => 304 | _ => 334
  before + (if leap && 2 < m then 1 else 0) + dd

/-- `rolling(window=7, min_periods=1).mean()` at index `i`: mean of the
non-null values among the up-to-7 trailing entries; null when none. -/
def rollingMean7 (col : List (Option ℚ)) (i : Nat) : Option ℚ :=
  let w := ((col.take (i + 1)).drop (i + 1 - 7)).filterMap id
  if w.isEmpty then none else some (w.sum / (w.length : ℚ))

/-- `Series.shift(k)` for `k ≥ 1`: `k` leading nulls, values move down. -/
def shiftDown (k : Nat) (col : List (Option ℚ)) : List (Option ℚ) :=
  List.replicate (Nat.min k col.length) none ++ col.take (col.length - k)

/-- `Series.bfill()` on a bare column. -/
def bfillOpt : List (Option ℚ) → List (Option ℚ)
  | [] => []
  | v :: rest =>
    let rest' := bfillOpt rest
    (match v with
     | some x => some x
     | none => match rest' with | [] => none | w :: _ => w) :: rest'

/-- A cleaned row enriched with the four derived columns. -/
structure SilverRow : Type where
  date : Nat
  meantemp : Option ℚ
  humidity : Option ℚ
  wind_speed : Option ℚ
  meanpressure : Option ℚ
  meantemp_rolling_7d : Option ℚ
  meantemp_lag_1 : Option ℚ
  meantemp_lag_7 : Option ℚ
  day_of_year : Nat
deriving DecidableEq, Repr

/-- `add_derived_features` (validate.py): rolling 7-day mean of
meantemp, backfilled lags 1 and 7 of meantemp, day of year. -/
def add_derived_features (df : List Row) : List SilverRow :=
  let df := sortByDate df
  let mt := df.map (·.meantemp)
  let lag1 := bfillOpt (shiftDown 1 mt)
  let lag7 := bfillOpt (shiftDown 7 mt)
  df.enum.map fun p =>
    { date := p.2.date
      meantemp := p.2.meantemp
      humidity := p.2.humidity
      wind_speed := p.2.wind_speed
      meanpressure := p.2.meanpressure
      meantemp_rolling_7d := rollingMean7 mt p.1
      meantemp_lag_1 := (lag1.get? p.1).getD none
      meantemp_lag_7 := (lag7.get? p.1).getD none
      day_of_year := dayOfYear p.2.date }

/-! ## The validate.py process (`main`) -/

/-- Outcome of one run of validate.py: exit status, the silver dataset
if one was written, the report file if one was written. -/
structure PipelineResult : Type where
  exitCode : Nat
  silver : Option (List SilverRow)
  report : Option Report
deriving DecidableEq, Repr

/-- `load_bronze` date parsing of one row. -/
def parseRow? (r : RawRow) : Option Row :=
  r.date.map fun d => ⟨d, r.meantemp, r.humidity, r.wind_speed, r.meanpressure⟩

/-- `main` of validate.py.  `load_bronze` exits (without writing any
report) if any date fails to parse; on an empty frame `run_checks`
raises at `pd.date_range(NaT, NaT)`, the uncaught exception ending the
process with exit code 1 and nothing written; a hard-fail check writes
only the report, marked failed, and exits 1; otherwise the
cleaned-and-enriched silver dataset and the passing report are
written. -/
def runPipeline (input : List RawRow) : PipelineResult :=
  if input.any fun r => r.date.isNone then
    { exitCode := 1, silver := none, report := none }
  else if input.filterMap parseRow? = [] then
    { exitCode := 1, silver := none, report := none }
  else
    let checks := run_checks (input.filterMap parseRow?) {}
    if checks.1 = false then
      { exitCode := 1, silver := none,
        report := some { checks.2 with validation_passed := some false } }
    else
      let res := clean_data (input.filterMap parseRow?) checks.2
      { exitCode := 0,
        silver := some (add_derived_features res.1),
        report := some { res.2 with validation_passed := some true } }

/-! ## Target construction (transform.py `create_target`) -/

/-- `Series.shift(-1)`: value at `i` becomes the value at `i + 1`, the
last entry becomes null. -/
def shiftUpOne : List (Option ℚ) → List (Option ℚ)
  | [] => []
  | [_] => [none]
  | _ :: b :: rest => b :: shiftUpOne (b :: rest)

/-- `create_target` (transform.py): add `target = meantemp.shift(-1)`,
then `dropna(subset=[target])`.  Polymorphic in the row type (the
columns kept by feature selection); `mt` reads the meantemp column. -/
def create_target {α : Type} (mt : α → Option ℚ) (df : List α) : List (α × Option ℚ) :=
  (df.zip (shiftUpOne (df.map mt))).filter fun p => p.2.isSome

/-! ## Ingestion (ingest.py `main`) -/

/-- The bronze-layer files: `bronze.csv` as a list of lines (`none` =
file absent) and the `ingested_batches.json` ledger (`none` = absent). -/
structure IngestState : Type where
  bronze : Option (List String)
  ledger : Option (List Nat)
deriving DecidableEq, Repr

/-- Result of one run of ingest.py: the files afterwards, whether the
process succeeded (no exception), and whether it logged the
already-ingested skip message. -/
structure IngestResult : Type where
  state : IngestState
  exitOk : Bool
  skipped : Bool
deriving DecidableEq, Repr

/-- `main` of ingest.py, with the raw batch directory abstracted as
`batchFiles : Nat → Option (List String)` (`none` = file absent). -/
def ingest_main (batchId : Nat) (batchFiles : Nat → Option (List String))
    (s : IngestState) : IngestResult :=
  if batchId < 1 ∨ 5 < batchId then ⟨s, false, false⟩
  else
    let ingested := s.ledger.getD []
    if batchId ∈ ingested then ⟨s, true, true⟩
    else
      match batchFiles batchId with
      | none => ⟨s, false, false⟩
      | some [] => ⟨⟨s.bronze, some (ingested ++ [batchId])⟩, true, false⟩
      | some (header :: dataLines) =>
        let bronze :=
          match s.bronze with
          | none => header :: dataLines
          | some b => b ++ dataLines
        ⟨⟨some bronze, some (ingested ++ [batchId])⟩, true, false⟩

end DataOps

/-! ## Basic lemmas about rows and columns -/

namespace DataOps

theorem Row.get_set_self (r : Row) (c : Col) (v : Option ℚ) : (r.set c v).get c = v := by
  cases c <;> rfl

theorem Row.get_set_of_ne (r : Row) {c c' : Col} (h : c' ≠ c) (v : Option ℚ) :
    (r.set c v).get c' = r.get c' := by
  cases c <;> cases c' <;> first | rfl | exact (h rfl).elim

theorem Row.date_set (r : Row) (c : Col) (v : Option ℚ) : (r.set c v).date = r.date := by
  cases c <;> rfl

/-! ## Sorting and `find?` helpers -/

theorem find?_cons_eq (p : Row → Bool) (a : Row) (l : List Row) :
    (a :: l).find? p = if p a then some a else l.find? p := by
  cases hp : p a <;> simp [List.find?_cons, hp]

theorem sortByDate_perm (df : List Row) : (sortByDate df).Perm df :=
  List.perm_insertionSort _ df

theorem mem_sortByDate {df : List Row} {r : Row} : r ∈ sortByDate df ↔ r ∈ df :=
  (sortByDate_perm df).mem_iff

/-! ## Deduplication lemmas -/

theorem mem_of_mem_dedupFirstAux {seen : List Nat} {df : List Row} {r : Row}
    (h : r ∈ dedupFirstAux seen df) : r ∈ df := by
  induction df generalizing seen with
  | nil => simp [dedupFirstAux] at h
  | cons a l ih =>
    by_cases ha : a.date ∈ seen
    · simp only [dedupFirstAux, if_pos ha] at h
      exact List.mem_cons_of_mem _ (ih h)
    · simp only [dedupFirstAux, if_neg ha, List.mem_cons] at h
      rcases h with h | h
      · exact h ▸ List.mem_cons_self _ _
      · exact List.mem_cons_of_mem _ (ih h)

theorem date_mem_dedupFirstAux {seen : List Nat} {df : List Row} {d : Nat} :
    d ∈ (dedupFirstAux seen df).map (·.date) ↔ d ∈ df.map (·.date) ∧ d ∉ seen := by
  induction df generalizing seen with
  | nil => simp [dedupFirstAux]
  | cons a l ih =>
    simp only [dedupFirstAux]
    split_ifs with ha
    · rw [ih]
      simp only [List.map_cons, List.mem_cons]
      by_cases hd : d = a.date
      · subst hd; tauto
      · tauto
    · simp only [List.map_cons, List.mem_cons, ih, List.mem_cons]
      by_cases hd : d = a.date
      · subst hd; tauto
      · tauto

theorem nodup_dates_dedupFirstAux (seen : List Nat) (df : List Row) :
    ((dedupFirstAux seen df).map (·.date)).Nodup := by
  induction df generalizing seen with
  | nil => simp [dedupFirstAux]
  | cons a l ih =>
    by_cases ha : a.date ∈ seen
    · simpa [dedupFirstAux, if_pos ha] using ih seen
    · simp only [dedupFirstAux, if_neg ha, List.map_cons, List.nodup_cons]
      refine ⟨fun hc => ?_, ih _⟩
      exact (date_mem_dedupFirstAux.1 hc).2 (List.mem_cons_self _ _)

theorem find?_eq_some_of_nodup {l : List Row} (h : (l.map (·.date)).Nodup) {r : Row}
    (hr : r ∈ l) : l.find? (fun x => x.date == r.date) = some r := by
  induction l with
  | nil => cases hr
  | cons a t ih =>
    rcases List.mem_cons.1 hr with hr | hr
    · subst hr; simp [List.find?]
    · have ha : a.date ≠ r.date := by
        intro hc
        have : r.date ∈ t.map (·.date) := List.mem_map_of_mem _ hr
        simp only [List.map_cons, List.nodup_cons] at h
        exact h.1 (hc ▸ this)
      rw [find?_cons_eq, if_neg (by simp [ha])]
      exact ih (by simp only [List.map_cons, List.nodup_cons] at h; exact h.2) hr

theorem dedupFirst_sub {df : List Row} {r : Row} (h : r ∈ dedupFirst df) : r ∈ df :=
  mem_of_mem_dedupFirstAux h

theorem date_mem_dedupFirst {df : List Row} {d : Nat} :
    d ∈ (dedupFirst df).map (·.date) ↔ d ∈ df.map (·.date) := by
  rw [dedupFirst, date_mem_dedupFirstAux]
  simp

theorem nodup_dates_dedupFirst (df : List Row) : ((dedupFirst df).map (·.date)).Nodup :=
  nodup_dates_dedupFirstAux [] df

end DataOps

/-! ## Minimum / maximum date lemmas -/

namespace DataOps

theorem minDate_le_of_mem {df : List Row} {d : Nat} (h : d ∈ df.map (·.date)) :
    minDate df ≤ d := by
  induction df with
  | nil => cases h
  | cons a l ih =>
    cases l with
    | nil =>
      simp only [List.map_cons, List.map_nil, List.mem_cons, List.not_mem_nil, or_false] at h
      simp [minDate, h]
    | cons b t =>
      simp only [minDate]
      rcases List.mem_cons.1 h with h1 | h1
      · exact le_trans (min_le_left _ _) (le_of_eq h1.symm)
      · exact le_trans (min_le_right _ _) (ih h1)

theorem le_maxDate_of_mem {df : List Row} {d : Nat} (h : d ∈ df.map (·.date)) :
    d ≤ maxDate df := by
  induction df with
  | nil => cases h
  | cons a l ih =>
    cases l with
    | nil =>
      simp only [List.map_cons, List.map_nil, List.mem_cons, List.not_mem_nil, or_false] at h
      simp [maxDate, h]
    | cons b t =>
      simp only [maxDate]
      rcases List.mem_cons.1 h with h1 | h1
      · exact le_trans (le_of_eq h1) (le_max_left _ _)
      · exact le_trans (ih h1) (le_max_right _ _)

theorem minDate_mem {df : List Row} (h : df ≠ []) : minDate df ∈ df.map (·.date) := by
  induction df with
  | nil => exact absurd rfl h
  | cons a l ih =>
    cases l with
    | nil => simp [minDate]
    | cons b t =>
      simp only [minDate]
      rcases le_total a.date (minDate (b :: t)) with hc | hc
      · rw [min_eq_left hc]; exact List.mem_cons_self _ _
      · rw [min_eq_right hc]
        exact List.mem_cons_of_mem _ (ih (by simp))

theorem maxDate_mem {df : List Row} (h : df ≠ []) : maxDate df ∈ df.map (·.date) := by
  induction df with
  | nil => exact absurd rfl h
  | cons a l ih =>
    cases l with
    | nil => simp [maxDate]
    | cons b t =>
      simp only [maxDate]
      rcases le_total a.date (maxDate (b :: t)) with hc | hc
      · rw [max_eq_right hc]
        exact List.mem_cons_of_mem _ (ih (by simp))
      · rw [max_eq_left hc]; exact List.mem_cons_self _ _

theorem minDate_congr {df df' : List Row} (h : df ≠ [])
    (hiff : ∀ d, d ∈ df.map (·.date) ↔ d ∈ df'.map (·.date)) :
    minDate df = minDate df' := by
  have h' : df' ≠ [] := by
    intro hc
    subst hc
    have := (hiff (minDate df)).1 (minDate_mem h)
    simp at this
  exact le_antisymm
    (minDate_le_of_mem ((hiff _).2 (minDate_mem h')))
    (minDate_le_of_mem ((hiff _).1 (minDate_mem h)))

theorem maxDate_congr {df df' : List Row} (h : df ≠ [])
    (hiff : ∀ d, d ∈ df.map (·.date) ↔ d ∈ df'.map (·.date)) :
    maxDate df = maxDate df' := by
  have h' : df' ≠ [] := by
    intro hc
    subst hc
    have := (hiff (maxDate df)).1 (maxDate_mem h)
    simp at this
  exact le_antisymm
    (le_maxDate_of_mem ((hiff _).1 (maxDate_mem h)))
    (le_maxDate_of_mem ((hiff _).2 (maxDate_mem h')))

/-- The dates of the sorted-and-deduplicated frame are those of the input. -/
theorem dates_dedup_sort {df : List Row} (d : Nat) :
    d ∈ (dedupFirst (sortByDate df)).map (·.date) ↔ d ∈ df.map (·.date) := by
  rw [date_mem_dedupFirst]
  constructor
  · rintro h
    rcases List.mem_map.1 h with ⟨r, hr, hd⟩
    exact List.mem_map.2 ⟨r, mem_sortByDate.1 hr, hd⟩
  · rintro h
    rcases List.mem_map.1 h with ⟨r, hr, hd⟩
    exact List.mem_map.2 ⟨r, mem_sortByDate.2 hr, hd⟩

/-! ## Reindex lemmas -/

theorem mem_fullRange {lo hi d : Nat} : d ∈ fullRange lo hi ↔ lo ≤ d ∧ d ≤ hi := by
  simp only [fullRange, List.mem_map, List.mem_range]
  constructor
  · rintro ⟨i, hi1, rfl⟩; omega
  · rintro ⟨h1, h2⟩; exact ⟨d - lo, by omega, by omega⟩

theorem reindex_dates (df : List Row) (days : List Nat) :
    (reindex df days).map (·.date) = days := by
  rw [reindex, List.map_map]
  have : ∀ d ∈ days,
      ((fun d => ((df.find? fun r => r.date == d).getD (emptyRow d)).date) d) = d := by
    intro d _
    cases hf : df.find? fun r => r.date == d with
    | none => simp [hf, emptyRow]
    | some r =>
      have := List.find?_some hf
      simp only [beq_iff_eq] at this
      simp [hf, this]
  calc (days.map fun d => ((df.find? fun r => r.date == d).getD (emptyRow d)).date)
      = days.map id := List.map_congr_left this
    _ = days := List.map_id days

theorem mem_reindex_provenance {df : List Row} {days : List Nat} {r' : Row}
    (h : r' ∈ reindex df days) : r' ∈ df ∨ ∃ d, r' = emptyRow d := by
  rcases List.mem_map.1 h with ⟨d, _, hd⟩
  cases hf : df.find? fun r => r.date == d with
  | none => right; exact ⟨d, by rw [← hd, hf]; rfl⟩
  | some r =>
    left
    have := List.mem_of_find?_eq_some hf
    rwa [← hd, hf]

theorem mem_reindex_of_mem {df : List Row} {days : List Nat} {r : Row}
    (hnd : (df.map (·.date)).Nodup) (hr : r ∈ df) (hd : r.date ∈ days) :
    r ∈ reindex df days := by
  refine List.mem_map.2 ⟨r.date, hd, ?_⟩
  rw [find?_eq_some_of_nodup hnd hr]
  rfl

end DataOps

/-! ## Imputation lemmas (ffill / bfill) -/

namespace DataOps

theorem map_ffillAux {β : Type} (f : Row → β) {c : Col}
    (hf : ∀ r x, f (r.set c x) = f r) (carry : Option ℚ) (df : List Row) :
    (ffillAux c carry df).map f = df.map f := by
  induction df generalizing carry with
  | nil => rfl
  | cons r rest ih =>
    cases hr : r.get c with
    | some v => simp only [ffillAux, hr, List.map_cons, ih]
    | none => simp only [ffillAux, hr, List.map_cons, ih, hf]

theorem map_bfillCol {β : Type} (f : Row → β) {c : Col}
    (hf : ∀ r x, f (r.set c x) = f r) (df : List Row) :
    (bfillCol c df).map f = df.map f := by
  induction df with
  | nil => rfl
  | cons r rest ih =>
    cases hr : r.get c with
    | some v => simp only [bfillCol, hr, List.map_cons, ih]
    | none => simp only [bfillCol, hr, List.map_cons, ih, hf]

theorem map_imputeCol {β : Type} (f : Row → β) {c : Col}
    (hf : ∀ r x, f (r.set c x) = f r) (df : List Row) :
    (imputeCol c df).map f = df.map f := by
  rw [imputeCol, map_bfillCol f hf, map_ffillAux f hf]

theorem imputeCol_dates (c : Col) (df : List Row) :
    (imputeCol c df).map (·.date) = df.map (·.date) :=
  map_imputeCol _ (fun r x => Row.date_set r c x) df

theorem imputeCol_get_of_ne {c c' : Col} (h : c' ≠ c) (df : List Row) :
    (imputeCol c df).map (·.get c') = df.map (·.get c') :=
  map_imputeCol _ (fun r x => Row.get_set_of_ne r h x) df

theorem ffillAux_isSome_of_carry {c : Col} (v : ℚ) (df : List Row) :
    ∀ r' ∈ ffillAux c (some v) df, (r'.get c).isSome := by
  induction df generalizing v with
  | nil => intro r' h; cases h
  | cons r rest ih =>
    intro r' h
    cases hr : r.get c with
    | some w =>
      rw [ffillAux, hr] at h
      rcases List.mem_cons.1 h with h1 | h1
      · subst h1; simp [hr]
      · exact ih w r' h1
    | none =>
      rw [ffillAux, hr] at h
      rcases List.mem_cons.1 h with h1 | h1
      · subst h1; simp [Row.get_set_self]
      · exact ih v r' h1

/-- After one forward pass the column is a (possibly empty) all-null
prefix followed by an all-non-null suffix, the suffix non-empty as soon
as the input column holds any value. -/
theorem ffillAux_split (c : Col) (df : List Row) :
    ∃ p q, ffillAux c none df = p ++ q ∧ (∀ r ∈ p, r.get c = none) ∧
      (∀ r ∈ q, (r.get c).isSome) ∧
      ((∃ r ∈ df, (r.get c).isSome) → q ≠ []) := by
  induction df with
  | nil => exact ⟨[], [], rfl, by simp, by simp, by simp⟩
  | cons r rest ih =>
    cases hr : r.get c with
    | some v =>
      refine ⟨[], r :: ffillAux c (some v) rest, by rw [ffillAux, hr]; rfl, by simp, ?_, by simp⟩
      intro r' h
      rcases List.mem_cons.1 h with h1 | h1
      · subst h1; simp [hr]
      · exact ffillAux_isSome_of_carry v rest r' h1
    | none =>
      rcases ih with ⟨p, q, heq, hp, hq, hne⟩
      refine ⟨r.set c none :: p, q, ?_, ?_, hq, ?_⟩
      · rw [ffillAux, hr, heq]; rfl
      · intro r' h
        rcases List.mem_cons.1 h with h1 | h1
        · subst h1; simp [Row.get_set_self]
        · exact hp r' h1
      · rintro ⟨r', hr', hs⟩
        rcases List.mem_cons.1 hr' with h1 | h1
        · subst h1; rw [hr] at hs; cases hs
        · exact hne ⟨r', h1, hs⟩

theorem headVal_cons (c : Col) (r : Row) (l : List Row) : headVal c (r :: l) = r.get c := rfl

theorem headVal_bfillCol_isSome {c : Col} (l : List Row) :
    (headVal c (bfillCol c l)).isSome = true ↔ ∃ r ∈ l, (r.get c).isSome := by
  induction l with
  | nil => simp [bfillCol, headVal]
  | cons r rest ih =>
    cases hr : r.get c with
    | some v =>
      rw [bfillCol, hr]
      rw [headVal_cons, hr]
      constructor
      · intro _; exact ⟨r, List.mem_cons_self _ _, by simp [hr]⟩
      · intro _; rfl
    | none =>
      rw [bfillCol, hr]
      rw [headVal_cons, Row.get_set_self, ih]
      constructor
      · rintro ⟨r1, h1, h2⟩; exact ⟨r1, List.mem_cons_of_mem _ h1, h2⟩
      · rintro ⟨r1, h1, h2⟩
        rcases List.mem_cons.1 h1 with h3 | h3
        · rw [h3, hr] at h2; cases h2
        · exact ⟨r1, h3, h2⟩

theorem bfillCol_allSome {c : Col} (l : List Row)
    (h : ∀ r ∈ l, (r.get c).isSome) : ∀ r' ∈ bfillCol c l, (r'.get c).isSome := by
  induction l with
  | nil => intro r' h'; cases h'
  | cons r rest ih =>
    intro r' h'
    have hr : (r.get c).isSome := h r (List.mem_cons_self _ _)
    cases hg : r.get c with
    | none => rw [hg] at hr; cases hr
    | some v =>
      rw [bfillCol, hg] at h'
      rcases List.mem_cons.1 h' with h1 | h1
      · subst h1; simp [hg]
      · exact ih (fun x hx => h x (List.mem_cons_of_mem _ hx)) r' h1

theorem bfillCol_append_allSome {c : Col} (p q : List Row)
    (hp : ∀ r ∈ p, r.get c = none)
    (hq : ∀ r ∈ q, (r.get c).isSome) (hne : q ≠ []) :
    ∀ r' ∈ bfillCol c (p ++ q), (r'.get c).isSome := by
  induction p with
  | nil =>
    simpa using bfillCol_allSome q hq
  | cons r p' ih =>
    intro r' h'
    have hr : r.get c = none := hp r (List.mem_cons_self _ _)
    rw [List.cons_append, bfillCol, hr] at h'
    rcases List.mem_cons.1 h' with h1 | h1
    · subst h1
      rw [Row.get_set_self]
      rw [headVal_bfillCol_isSome]
      rcases q with _ | ⟨x, q'⟩
      · exact absurd rfl hne
      · exact ⟨x, by simp, hq x (by simp)⟩
    · exact ih (fun x hx => hp x (List.mem_cons_of_mem _ hx)) r' h1

/-- Imputing a column leaves no nulls as soon as one value is present. -/
theorem imputeCol_allSome {c : Col} {df : List Row}
    (h : ∃ r ∈ df, (r.get c).isSome) :
    ∀ r' ∈ imputeCol c df, (r'.get c).isSome := by
  rcases ffillAux_split c df with ⟨p, q, heq, hp, hq, hne⟩
  rw [imputeCol, heq]
  exact bfillCol_append_allSome p q hp hq (hne h)

theorem ffillAux_val_sub {c : Col} {carry : Option ℚ} {df : List Row} {r' : Row}
    (h : r' ∈ ffillAux c carry df) {v : ℚ} (hv : r'.get c = some v) :
    (∃ r ∈ df, r.get c = some v) ∨ carry = some v := by
  induction df generalizing carry with
  | nil => cases h
  | cons r rest ih =>
    cases hr : r.get c with
    | some w =>
      rw [ffillAux, hr] at h
      rcases List.mem_cons.1 h with h1 | h1
      · exact Or.inl ⟨r', by rw [h1]; exact List.mem_cons_self _ _, hv⟩
      · rcases ih h1 with ⟨x, hx1, hx2⟩ | h2
        · exact Or.inl ⟨x, List.mem_cons_of_mem _ hx1, hx2⟩
        · rw [h2] at hr
          exact Or.inl ⟨r, List.mem_cons_self _ _, hr⟩
    | none =>
      rw [ffillAux, hr] at h
      rcases List.mem_cons.1 h with h1 | h1
      · subst h1
        rw [Row.get_set_self] at hv
        exact Or.inr hv
      · rcases ih h1 with ⟨x, hx1, hx2⟩ | h2
        · exact Or.inl ⟨x, List.mem_cons_of_mem _ hx1, hx2⟩
        · exact Or.inr h2

theorem bfillCol_val_sub {c : Col} (df : List Row) :
    ∀ r' ∈ bfillCol c df, ∀ v : ℚ, r'.get c = some v → ∃ r ∈ df, r.get c = some v := by
  induction df with
  | nil => intro r' h; cases h
  | cons r rest ih =>
    intro r' h v hv
    cases hr : r.get c with
    | some w =>
      rw [bfillCol, hr] at h
      rcases List.mem_cons.1 h with h1 | h1
      · exact ⟨r', by rw [h1]; exact List.mem_cons_self _ _, hv⟩
      · rcases ih r' h1 v hv with ⟨x, hx1, hx2⟩
        exact ⟨x, List.mem_cons_of_mem _ hx1, hx2⟩
    | none =>
      rw [bfillCol, hr] at h
      rcases List.mem_cons.1 h with h1 | h1
      · rw [h1, Row.get_set_self] at hv
        cases hb : bfillCol c rest with
        | nil => rw [hb, headVal] at hv; cases hv
        | cons x t =>
          rw [hb, headVal_cons] at hv
          have hx : x ∈ bfillCol c rest := by rw [hb]; exact List.mem_cons_self x t
          rcases ih x hx v hv with ⟨y, hy1, hy2⟩
          exact ⟨y, List.mem_cons_of_mem _ hy1, hy2⟩
      · rcases ih r' h1 v hv with ⟨x, hx1, hx2⟩
        exact ⟨x, List.mem_cons_of_mem _ hx1, hx2⟩

theorem imputeCol_val_sub {c : Col} {df : List Row} {r' : Row}
    (h : r' ∈ imputeCol c df) {v : ℚ} (hv : r'.get c = some v) :
    ∃ r ∈ df, r.get c = some v := by
  rcases bfillCol_val_sub _ r' h v hv with ⟨x, hx1, hx2⟩
  rcases ffillAux_val_sub hx1 hx2 with ⟨y, hy1, hy2⟩ | h2
  · exact ⟨y, hy1, hy2⟩
  · cases h2

end DataOps

/-! ## Rounding lemmas -/

namespace DataOps

theorem roundHalfEven_le {q : ℚ} {n : ℤ} (h : q ≤ (n : ℚ)) : roundHalfEven q ≤ n := by
  have hf : ⌊q⌋ ≤ n := by
    have := Int.floor_mono h
    simpa using this
  have hfq : (⌊q⌋ : ℚ) ≤ q := Int.floor_le q
  rw [roundHalfEven]
  split_ifs with h1 h2 h3
  · exact hf
  · have hlt : (⌊q⌋ : ℚ) < (n : ℚ) := by linarith
    have : ⌊q⌋ < n := by exact_mod_cast hlt
    omega
  · exact hf
  · have hhalf : q - (⌊q⌋ : ℚ) = 1/2 := le_antisymm (not_lt.1 h2) (not_lt.1 h1)
    have hlt : (⌊q⌋ : ℚ) < (n : ℚ) := by linarith
    have : ⌊q⌋ < n := by exact_mod_cast hlt
    omega

theorem le_roundHalfEven {q : ℚ} {n : ℤ} (h : (n : ℚ) ≤ q) : n ≤ roundHalfEven q := by
  have hf : n ≤ ⌊q⌋ := Int.le_floor.2 h
  rw [roundHalfEven]
  split_ifs <;> omega

theorem round2_bounds {lo hi : ℤ} {v : ℚ} (h1 : (lo : ℚ) ≤ v) (h2 : v ≤ (hi : ℚ)) :
    (lo : ℚ) ≤ round2 v ∧ round2 v ≤ (hi : ℚ) := by
  have hu : v * 100 ≤ ((hi * 100 : ℤ) : ℚ) := by push_cast; linarith
  have hl : ((lo * 100 : ℤ) : ℚ) ≤ v * 100 := by push_cast; linarith
  have hU := roundHalfEven_le hu
  have hL := le_roundHalfEven hl
  have hUQ : ((roundHalfEven (v * 100) : ℤ) : ℚ) ≤ ((hi * 100 : ℤ) : ℚ) := by exact_mod_cast hU
  have hLQ : ((lo * 100 : ℤ) : ℚ) ≤ ((roundHalfEven (v * 100) : ℤ) : ℚ) := by exact_mod_cast hL
  constructor
  · rw [round2, le_div_iff₀ (by norm_num : (0 : ℚ) < 100)]
    push_cast at hLQ ⊢
    linarith
  · rw [round2, div_le_iff₀ (by norm_num : (0 : ℚ) < 100)]
    push_cast at hUQ ⊢
    linarith

theorem isRounded2_round2 (q : ℚ) : isRounded2 (round2 q) := by
  refine ⟨roundHalfEven (q * 100), ?_⟩
  rw [round2]
  field_simp

theorem roundRow_get (r : Row) (c : Col) : (roundRow r).get c = (r.get c).map round2 := by
  cases c <;> rfl

theorem roundRow_date (r : Row) : (roundRow r).date = r.date := rfl

/-! ## Soft-range nulling lemmas -/

theorem nullSoftRow_date (r : Row) : (nullSoftRow r).date = r.date := rfl

theorem nullSoftRow_get (r : Row) (c : Col) :
    (nullSoftRow r).get c =
      cond (VALUE_RANGES c).2.2 (r.get c)
        (nullSoftVal (VALUE_RANGES c).1 (VALUE_RANGES c).2.1 (r.get c)) := by
  cases c <;> rfl

theorem nullSoftVal_eq_some {lo hi : ℤ} {v : Option ℚ} {x : ℚ}
    (h : nullSoftVal lo hi v = some x) :
    v = some x ∧ (lo : ℚ) ≤ x ∧ x ≤ (hi : ℚ) := by
  cases v with
  | none => cases h
  | some y =>
    rw [nullSoftVal] at h
    split_ifs at h with hy
    cases h
    push_neg at hy
    exact ⟨rfl, hy.1, hy.2⟩

theorem nullSoftVal_of_inRange {lo hi : ℤ} {x : ℚ}
    (h1 : (lo : ℚ) ≤ x) (h2 : x ≤ (hi : ℚ)) :
    nullSoftVal lo hi (some x) = some x := by
  rw [nullSoftVal]
  rw [if_neg]
  push_neg
  exact ⟨h1, h2⟩

theorem nullSoft_dates (df : List Row) : (nullSoft df).map (·.date) = df.map (·.date) := by
  rw [nullSoft, List.map_map]
  rfl

/-! ## Range-check lemmas -/

theorem countBelow_eq_zero {c : Col} {df : List Row} :
    countBelow c df = 0 ↔
      ∀ r ∈ df, ∀ v : ℚ, r.get c = some v → ((VALUE_RANGES c).1 : ℚ) ≤ v := by
  rw [countBelow, List.countP_eq_zero]
  constructor
  · intro h r hr v hv
    have := h r hr
    rw [hv] at this
    simpa using this
  · intro h r hr
    cases hg : r.get c with
    | none => simp [hg]
    | some v =>
      have := h r hr v hg
      simp [hg, not_lt, this]

theorem countAbove_eq_zero {c : Col} {df : List Row} :
    countAbove c df = 0 ↔
      ∀ r ∈ df, ∀ v : ℚ, r.get c = some v → v ≤ ((VALUE_RANGES c).2.1 : ℚ) := by
  rw [countAbove, List.countP_eq_zero]
  constructor
  · intro h r hr v hv
    have := h r hr
    rw [hv] at this
    simpa using this
  · intro h r hr
    cases hg : r.get c with
    | none => simp [hg]
    | some v =>
      have := h r hr v hg
      simp [hg, not_lt, this]

theorem checkRanges_ok_iff (df : List Row) (cs : List Col) :
    (checkRanges df cs).1 = true ↔
      ∀ c ∈ cs, (VALUE_RANGES c).2.2 = true →
        countBelow c df = 0 ∧ countAbove c df = 0 := by
  induction cs with
  | nil => simp [checkRanges]
  | cons c cs ih =>
    rw [checkRanges]
    by_cases h : 0 < countBelow c df ∨ 0 < countAbove c df
    · rw [if_pos h]
      by_cases hh : (VALUE_RANGES c).2.2 = true
      · rw [if_pos hh]
        simp only [List.mem_cons]
        constructor
        · intro hfalse; cases hfalse
        · intro hall
          rcases hall c (Or.inl rfl) hh with ⟨h1, h2⟩
          omega
      · rw [if_neg hh, ih]
        constructor
        · intro hall c' hc' hard
          rcases List.mem_cons.1 hc' with h1 | h1
          · exact absurd (h1 ▸ hard) hh
          · exact hall c' h1 hard
        · intro hall c' hc' hard
          exact hall c' (List.mem_cons_of_mem _ hc') hard
    · rw [if_neg h, ih]
      push_neg at h
      constructor
      · intro hall c' hc' hard
        rcases List.mem_cons.1 hc' with h1 | h1
        · subst h1; omega
        · exact hall c' h1 hard
      · intro hall c' hc' hard
        exact hall c' (List.mem_cons_of_mem _ hc') hard

theorem run_checks_ok_iff (df : List Row) (rep : Report) :
    (run_checks df rep).1 = true ↔
      ∀ c ∈ colList, (VALUE_RANGES c).2.2 = true →
        countBelow c df = 0 ∧ countAbove c df = 0 := by
  rw [run_checks]
  exact checkRanges_ok_iff df colList

end DataOps

/-! ## Column-level facts and the composite cleaning pipeline -/

namespace DataOps

theorem col_mem_colList (c : Col) : c ∈ colList := by
  cases c <;> simp [colList]

/-- A value lies within the configured `[min, max]` of its column. -/
def inRange (c : Col) (v : ℚ) : Prop :=
  ((VALUE_RANGES c).1 : ℚ) ≤ v ∧ v ≤ ((VALUE_RANGES c).2.1 : ℚ)

instance (c : Col) (v : ℚ) : Decidable (inRange c v) :=
  inferInstanceAs (Decidable (_ ∧ _))

/-- The rows produced by `clean_data` (its report argument only threads
diagnostic counts and does not influence the data). -/
def cleanedRows (df : List Row) : List Row :=
  let deduped := dedupFirst (sortByDate df)
  let days := fullRange (minDate deduped) (maxDate deduped)
  let nulled := nullSoft (reindex deduped days)
  let m := missingCount nulled
  roundAll (if 0 < m then imputeAll nulled else nulled)

theorem clean_data_fst (df : List Row) (rep : Report) :
    (clean_data df rep).1 = cleanedRows df := rfl

theorem clean_data_duplicates_removed (df : List Row) (rep : Report) :
    (clean_data df rep).2.duplicates_removed =
      some ((sortByDate df).length - (dedupFirst (sortByDate df)).length) := rfl

theorem imputeAll_eq (l : List Row) :
    imputeAll l =
      imputeCol .meanpressure (imputeCol .wind_speed
        (imputeCol .humidity (imputeCol .meantemp l))) := rfl

theorem imputeAll_dates (l : List Row) :
    (imputeAll l).map (·.date) = l.map (·.date) := by
  rw [imputeAll_eq, imputeCol_dates, imputeCol_dates, imputeCol_dates, imputeCol_dates]

theorem roundAll_dates (l : List Row) :
    (roundAll l).map (·.date) = l.map (·.date) := by
  rw [roundAll, List.map_map]
  rfl

theorem countNone_le_missingCount {c : Col} (df : List Row) (hc : c ∈ colList) :
    (df.countP fun r => (r.get c).isNone) ≤ missingCount df := by
  cases c <;> simp [missingCount, colList, List.foldl] <;> omega

/-- If no cell of a listed column is missing, every cell is present. -/
theorem allSome_of_missingCount_zero {l : List Row} (h : missingCount l = 0)
    (c : Col) : ∀ r ∈ l, (r.get c).isSome := by
  have hle := countNone_le_missingCount l (col_mem_colList c)
  rw [h, Nat.le_zero] at hle
  intro r hr
  have := List.countP_eq_zero.1 hle r hr
  cases hg : r.get c with
  | none => rw [hg] at this; simp at this
  | some v => simp

/-! ### Stepwise behaviour of the 4-column imputation -/

theorem imputeCol_nonempty {c : Col} {l : List Row} (h : l ≠ []) : imputeCol c l ≠ [] := by
  intro hc
  have := imputeCol_dates c l
  rw [hc] at this
  have hlen := congrArg List.length this
  simp at hlen
  exact h (List.eq_nil_of_length_eq_zero hlen.symm)

theorem imputeCol_inRange_preserved {c0 : Col} {l : List Row}
    (hin : ∀ r ∈ l, ∀ c : Col, ∀ v : ℚ, r.get c = some v → inRange c v) :
    ∀ r' ∈ imputeCol c0 l, ∀ c : Col, ∀ v : ℚ, r'.get c = some v → inRange c v := by
  intro r' hr' c v hv
  by_cases hc : c = c0
  · subst hc
    rcases imputeCol_val_sub hr' hv with ⟨r, hr, hrv⟩
    exact hin r hr c v hrv
  · have hmap := imputeCol_get_of_ne hc l
    have hmem : some v ∈ (imputeCol c0 l).map (·.get c) := by
      exact List.mem_map.2 ⟨r', hr', hv⟩
    rw [hmap] at hmem
    rcases List.mem_map.1 hmem with ⟨r, hr, hrv⟩
    exact hin r hr c v hrv

theorem imputeCol_exSome_preserved {c0 c : Col} {l : List Row}
    (hex : ∃ r ∈ l, (r.get c).isSome) :
    ∃ r' ∈ imputeCol c0 l, (r'.get c).isSome := by
  by_cases hc : c = c0
  · subst hc
    have hne : l ≠ [] := by rintro rfl; rcases hex with ⟨r, hr, _⟩; cases hr
    have hne' := imputeCol_nonempty (c := c) hne
    cases hl : imputeCol c l with
    | nil => exact absurd hl hne'
    | cons x t =>
      refine ⟨x, List.mem_cons_self _ _, ?_⟩
      exact imputeCol_allSome hex x (by rw [hl]; exact List.mem_cons_self _ _)
  · rcases hex with ⟨r, hr, hs⟩
    cases hg : r.get c with
    | none => rw [hg] at hs; cases hs
    | some v =>
      have hmap := imputeCol_get_of_ne hc l
      have hmem : some v ∈ l.map (·.get c) := List.mem_map.2 ⟨r, hr, hg⟩
      rw [← hmap] at hmem
      rcases List.mem_map.1 hmem with ⟨r', hr', hrv⟩
      exact ⟨r', hr', by rw [hrv]; rfl⟩

theorem imputeCol_allSome_preserved {c0 c : Col} {l : List Row}
    (hall : ∀ r ∈ l, (r.get c).isSome) :
    ∀ r' ∈ imputeCol c0 l, (r'.get c).isSome := by
  by_cases hc : c = c0
  · subst hc
    cases l with
    | nil => intro r' hr'; cases hr'
    | cons x t =>
      exact imputeCol_allSome ⟨x, List.mem_cons_self _ _, hall x (List.mem_cons_self _ _)⟩
  · intro r' hr'
    have hmap := imputeCol_get_of_ne hc l
    have hmem : r'.get c ∈ (imputeCol c0 l).map (·.get c) := List.mem_map.2 ⟨r', hr', rfl⟩
    rw [hmap] at hmem
    rcases List.mem_map.1 hmem with ⟨r, hr, hrv⟩
    rw [← hrv]
    exact hall r hr

/-- After imputing all four columns, every listed column of every row is
present, and every present value already occurred in (hence is bounded
like) the input column. -/
theorem imputeAll_spec {l : List Row}
    (hin : ∀ r ∈ l, ∀ c : Col, ∀ v : ℚ, r.get c = some v → inRange c v)
    (hex : ∀ c : Col, ∃ r ∈ l, (r.get c).isSome) :
    ∀ r' ∈ imputeAll l, ∀ c : Col, ∃ v : ℚ, r'.get c = some v ∧ inRange c v := by
  rw [imputeAll_eq]
  set l1 := imputeCol .meantemp l with hl1
  set l2 := imputeCol .humidity l1 with hl2
  set l3 := imputeCol .wind_speed l2 with hl3
  have hin1 : ∀ r ∈ l1, ∀ c : Col, ∀ v : ℚ, r.get c = some v → inRange c v :=
    imputeCol_inRange_preserved hin
  have hin2 : ∀ r ∈ l2, ∀ c : Col, ∀ v : ℚ, r.get c = some v → inRange c v :=
    imputeCol_inRange_preserved hin1
  have hin3 : ∀ r ∈ l3, ∀ c : Col, ∀ v : ℚ, r.get c = some v → inRange c v :=
    imputeCol_inRange_preserved hin2
  have hin4 : ∀ r ∈ imputeCol .meanpressure l3, ∀ c : Col, ∀ v : ℚ,
      r.get c = some v → inRange c v :=
    imputeCol_inRange_preserved hin3
  -- presence of every column after the four passes
  have hmt1 : ∀ r ∈ l1, (r.get .meantemp).isSome :=
    imputeCol_allSome (hex .meantemp)
  have hmt2 : ∀ r ∈ l2, (r.get .meantemp).isSome := imputeCol_allSome_preserved hmt1
  have hmt3 : ∀ r ∈ l3, (r.get .meantemp).isSome := imputeCol_allSome_preserved hmt2
  have hmt4 : ∀ r ∈ imputeCol .meanpressure l3, (r.get .meantemp).isSome :=
    imputeCol_allSome_preserved hmt3
  have hhu1 : ∃ r ∈ l1, (r.get .humidity).isSome :=
    imputeCol_exSome_preserved (hex .humidity)
  have hhu2 : ∀ r ∈ l2, (r.get .humidity).isSome := imputeCol_allSome hhu1
  have hhu3 : ∀ r ∈ l3, (r.get .humidity).isSome := imputeCol_allSome_preserved hhu2
  have hhu4 : ∀ r ∈ imputeCol .meanpressure l3, (r.get .humidity).isSome :=
    imputeCol_allSome_preserved hhu3
  have hws1 : ∃ r ∈ l1, (r.get .wind_speed).isSome :=
    imputeCol_exSome_preserved (hex .wind_speed)
  have hws2 : ∃ r ∈ l2, (r.get .wind_speed).isSome := imputeCol_exSome_preserved hws1
  have hws3 : ∀ r ∈ l3, (r.get .wind_speed).isSome := imputeCol_allSome hws2
  have hws4 : ∀ r ∈ imputeCol .meanpressure l3, (r.get .wind_speed).isSome :=
    imputeCol_allSome_preserved hws3
  have hmp1 : ∃ r ∈ l1, (r.get .meanpressure).isSome :=
    imputeCol_exSome_preserved (hex .meanpressure)
  have hmp2 : ∃ r ∈ l2, (r.get .meanpressure).isSome := imputeCol_exSome_preserved hmp1
  have hmp3 : ∃ r ∈ l3, (r.get .meanpressure).isSome := imputeCol_exSome_preserved hmp2
  have hmp4 : ∀ r ∈ imputeCol .meanpressure l3, (r.get .meanpressure).isSome :=
    imputeCol_allSome hmp3
  intro r' hr' c
  have hsome : (r'.get c).isSome := by
    cases c
    · exact hmt4 r' hr'
    · exact hhu4 r' hr'
    · exact hws4 r' hr'
    · exact hmp4 r' hr'
  cases hg : r'.get c with
  | none => rw [hg] at hsome; cases hsome
  | some v => exact ⟨v, rfl, hin4 r' hr' c v hg⟩

end DataOps

/-! ## Main properties of `clean_data` -/

namespace DataOps

theorem emptyRow_get (d : Nat) (c : Col) : (emptyRow d).get c = none := by
  cases c <;> rfl

theorem cleanedRows_dates (df : List Row) (h : df ≠ []) :
    (cleanedRows df).map (·.date) = fullRange (minDate df) (maxDate df) := by
  have hset : ∀ d, d ∈ (dedupFirst (sortByDate df)).map (·.date) ↔ d ∈ df.map (·.date) :=
    fun d => dates_dedup_sort d
  have hDne : dedupFirst (sortByDate df) ≠ [] := by
    rcases List.exists_mem_of_ne_nil df h with ⟨r0, hr0⟩
    intro hc
    have hmem : r0.date ∈ (dedupFirst (sortByDate df)).map (·.date) :=
      (hset _).2 (List.mem_map_of_mem _ hr0)
    rw [hc] at hmem
    cases hmem
  have hmin : minDate (dedupFirst (sortByDate df)) = minDate df := minDate_congr hDne hset
  have hmax : maxDate (dedupFirst (sortByDate df)) = maxDate df := maxDate_congr hDne hset
  simp only [cleanedRows]
  rw [roundAll_dates]
  split_ifs with hm
  · rw [imputeAll_dates, nullSoft_dates, reindex_dates, hmin, hmax]
  · rw [nullSoft_dates, reindex_dates, hmin, hmax]

/-- Every value present in the reindexed, de-duplicated frame belonging
to a hard-fail column is in range, provided the checks passed. -/
theorem reindexed_hard_inRange {df : List Row} (hok : (run_checks df {}).1 = true)
    (days : List Nat) :
    ∀ r ∈ reindex (dedupFirst (sortByDate df)) days, ∀ c : Col,
      (VALUE_RANGES c).2.2 = true → ∀ v : ℚ, r.get c = some v → inRange c v := by
  intro r hr c hc v hv
  rcases mem_reindex_provenance hr with h1 | ⟨d, rfl⟩
  · have hdf : r ∈ df := mem_sortByDate.1 (dedupFirst_sub h1)
    rcases (run_checks_ok_iff df {}).1 hok c (col_mem_colList c) hc with ⟨h1, h2⟩
    exact ⟨countBelow_eq_zero.1 h1 r hdf v hv, countAbove_eq_zero.1 h2 r hdf v hv⟩
  · rw [emptyRow_get] at hv
    cases hv

/-- After soft-range nulling, every present value of every column is in
its configured range. -/
theorem nulled_inRange {df : List Row} (hok : (run_checks df {}).1 = true)
    (days : List Nat) :
    ∀ r' ∈ nullSoft (reindex (dedupFirst (sortByDate df)) days), ∀ c : Col,
      ∀ v : ℚ, r'.get c = some v → inRange c v := by
  intro r' hr' c v hv
  rcases List.mem_map.1 hr' with ⟨r, hr, rfl⟩
  rw [nullSoftRow_get] at hv
  cases hc : (VALUE_RANGES c).2.2 with
  | true =>
    rw [hc, cond_true] at hv
    exact reindexed_hard_inRange hok days r hr c hc v hv
  | false =>
    rw [hc, cond_false] at hv
    rcases nullSoftVal_eq_some hv with ⟨_, hlo, hhi⟩
    exact ⟨hlo, hhi⟩

/-- A surviving in-range witness yields a present value after nulling. -/
theorem nulled_exSome {df : List Row} {c : Col}
    (hwit : ∃ r ∈ dedupFirst (sortByDate df), ∃ v : ℚ, r.get c = some v ∧ inRange c v) :
    ∃ r' ∈ nullSoft (reindex (dedupFirst (sortByDate df))
      (fullRange (minDate (dedupFirst (sortByDate df)))
        (maxDate (dedupFirst (sortByDate df))))), (r'.get c).isSome := by
  rcases hwit with ⟨r, hrD, v, hv, hvr⟩
  have hdays : r.date ∈ fullRange (minDate (dedupFirst (sortByDate df)))
      (maxDate (dedupFirst (sortByDate df))) := by
    rw [mem_fullRange]
    exact ⟨minDate_le_of_mem (List.mem_map_of_mem _ hrD),
           le_maxDate_of_mem (List.mem_map_of_mem _ hrD)⟩
  have hrR : r ∈ reindex (dedupFirst (sortByDate df))
      (fullRange (minDate (dedupFirst (sortByDate df)))
        (maxDate (dedupFirst (sortByDate df)))) :=
    mem_reindex_of_mem (nodup_dates_dedupFirst _) hrD hdays
  refine ⟨nullSoftRow r, List.mem_map_of_mem _ hrR, ?_⟩
  rw [nullSoftRow_get]
  cases hc : (VALUE_RANGES c).2.2 with
  | true => rw [cond_true, hv]; rfl
  | false =>
    rw [cond_false, hv, nullSoftVal_of_inRange hvr.1 hvr.2]
    rfl

/-- The cells of the cleaned frame: every column of every row is
present, in range, and rounded, provided checks passed and every column
retains an in-range value after deduplication. -/
theorem cleanedRows_cells (df : List Row)
    (hok : (run_checks df {}).1 = true)
    (hwit : ∀ c : Col, ∃ r ∈ dedupFirst (sortByDate df),
      ∃ v : ℚ, r.get c = some v ∧ inRange c v) :
    ∀ r' ∈ cleanedRows df, ∀ c : Col,
      ∃ v : ℚ, r'.get c = some v ∧ inRange c v := by
  intro r' hr' c
  simp only [cleanedRows] at hr'
  rcases List.mem_map.1 hr' with ⟨r, hrX, rfl⟩
  by_cases hm : 0 < missingCount (nullSoft (reindex (dedupFirst (sortByDate df))
      (fullRange (minDate (dedupFirst (sortByDate df)))
        (maxDate (dedupFirst (sortByDate df)))))) 
  · rw [if_pos hm] at hrX
    rcases imputeAll_spec (nulled_inRange hok _) (fun c' => nulled_exSome (hwit c'))
        r hrX c with ⟨v, hv, hvr⟩
    refine ⟨round2 v, ?_, ?_⟩
    · rw [roundRow_get, hv]
      rfl
    · exact round2_bounds hvr.1 hvr.2
  · rw [if_neg hm] at hrX
    have hm0 : missingCount (nullSoft (reindex (dedupFirst (sortByDate df))
        (fullRange (minDate (dedupFirst (sortByDate df)))
          (maxDate (dedupFirst (sortByDate df)))))) = 0 := by omega
    have hsome := allSome_of_missingCount_zero hm0 c r hrX
    cases hg : r.get c with
    | none => rw [hg] at hsome; cases hsome
    | some v =>
      refine ⟨round2 v, by rw [roundRow_get, hg]; rfl, ?_⟩
      have := nulled_inRange hok _ r hrX c v hg
      exact round2_bounds this.1 this.2

end DataOps

/-! ## Evaluating `round2` on concrete values -/

namespace DataOps

theorem roundHalfEven_intCast (n : ℤ) : roundHalfEven ((n : ℤ) : ℚ) = n := by
  rw [roundHalfEven]
  rw [Int.floor_intCast]
  rw [if_pos]
  norm_num

theorem round2_eq_self (n : ℤ) {q : ℚ} (h : q * 100 = ((n : ℤ) : ℚ)) : round2 q = q := by
  rw [round2, h, roundHalfEven_intCast]
  rw [eq_comm, eq_div_iff (by norm_num : (100 : ℚ) ≠ 0)]
  exact h

/-! ## Behaviour of the validate.py process -/

theorem runPipeline_of_bad_date {input : List RawRow} (h : ∃ r ∈ input, r.date = none) :
    runPipeline input = ⟨1, none, none⟩ := by
  rw [runPipeline, if_pos]
  rcases h with ⟨r, hr, hd⟩
  exact List.any_eq_true.2 ⟨r, hr, by rw [hd]; rfl⟩

theorem not_any_isNone {input : List RawRow} (hd : ∀ r ∈ input, r.date.isSome) :
    ¬ ((input.any fun r => r.date.isNone) = true) := by
  intro hc
  rcases List.any_eq_true.1 hc with ⟨r, hr, hno⟩
  have := hd r hr
  cases hg : r.date with
  | none => rw [hg] at this; cases this
  | some d => rw [hg] at hno; cases hno

theorem runPipeline_checks_fail {input : List RawRow}
    (hd : ∀ r ∈ input, r.date.isSome)
    (hc : (run_checks (input.filterMap parseRow?) {}).1 = false) :
    runPipeline input =
      ⟨1, none, some { (run_checks (input.filterMap parseRow?) {}).2 with
        validation_passed := some false }⟩ := by
  have hne : ¬ (input.filterMap parseRow? = []) := by
    intro h
    rw [h] at hc
    have ht : (run_checks ([] : List Row) {}).1 = true := by decide
    rw [ht] at hc
    cases hc
  rw [runPipeline, if_neg (not_any_isNone hd), if_neg hne, if_pos hc]

theorem runPipeline_checks_pass {input : List RawRow}
    (hd : ∀ r ∈ input, r.date.isSome)
    (hne : input.filterMap parseRow? ≠ [])
    (hc : (run_checks (input.filterMap parseRow?) {}).1 = true) :
    runPipeline input =
      ⟨0, some (add_derived_features
          (clean_data (input.filterMap parseRow?)
            (run_checks (input.filterMap parseRow?) {}).2).1),
        some { (clean_data (input.filterMap parseRow?)
            (run_checks (input.filterMap parseRow?) {}).2).2 with
          validation_passed := some true }⟩ := by
  rw [runPipeline, if_neg (not_any_isNone hd), if_neg hne, if_neg (by rw [hc]; simp)]

theorem run_checks_report_fields (df : List Row) (rep : Report) :
    (run_checks df rep).2.duplicates_found.isSome ∧
    (run_checks df rep).2.missing_dates.isSome ∧
    (run_checks df rep).2.value_range_violations.isSome ∧
    (run_checks df rep).2.rows_in = rep.rows_in := by
  exact ⟨rfl, rfl, rfl, rfl⟩

end DataOps

/-! ## Target-construction lemmas (transform.py) -/

namespace DataOps

theorem shiftUpOne_cons_cons (x y : Option ℚ) (t : List (Option ℚ)) :
    shiftUpOne (x :: y :: t) = y :: shiftUpOne (y :: t) := rfl

theorem create_target_eq {α : Type} (mt : α → Option ℚ) (df : List α)
    (hall : ∀ a ∈ df, (mt a).isSome) :
    create_target mt df = df.zipWith (fun a b => (a, mt b)) df.tail := by
  induction df with
  | nil => rfl
  | cons a rest ih =>
    cases rest with
    | nil => rfl
    | cons b rest2 =>
      have hb : (mt b).isSome := hall b (by simp)
      have htail := ih fun x hx => hall x (List.mem_cons_of_mem _ hx)
      show (((a :: b :: rest2).zip
          (shiftUpOne (mt a :: mt b :: rest2.map mt))).filter fun p => p.2.isSome) = _
      rw [shiftUpOne_cons_cons, List.zip_cons_cons,
          List.filter_cons_of_pos (by simpa using hb)]
      show (a, mt b) :: create_target mt (b :: rest2) = _
      rw [htail]
      rfl

theorem zipWith_get? {α β γ : Type} (f : α → β → γ) (l1 : List α) (l2 : List β) (i : Nat) :
    (List.zipWith f l1 l2).get? i = (l1.get? i).bind fun a => (l2.get? i).map (f a) := by
  induction l1 generalizing l2 i with
  | nil => simp
  | cons a l ih =>
    cases l2 with
    | nil => simp
    | cons b t =>
      cases i with
      | zero => simp [List.get?]
      | succ n => simpa [List.get?] using ih t n

theorem tail_get? {α : Type} (l : List α) (i : Nat) : l.tail.get? i = l.get? (i + 1) := by
  cases l <;> simp [List.get?]

/-! ## Derived-feature provenance lemmas -/

theorem bfillOpt_val_sub {l : List (Option ℚ)} {v : ℚ} (h : some v ∈ bfillOpt l) :
    some v ∈ l := by
  induction l with
  | nil => cases h
  | cons o rest ih =>
    cases o with
    | some x =>
      rw [show bfillOpt (some x :: rest) = some x :: bfillOpt rest from rfl] at h
      rcases List.mem_cons.1 h with h1 | h1
      · exact h1 ▸ List.mem_cons_self _ _
      · exact List.mem_cons_of_mem _ (ih h1)
    | none =>
      rw [show bfillOpt (none :: rest) =
            (match bfillOpt rest with | [] => none | w :: _ => w) :: bfillOpt rest
          from rfl] at h
      rcases List.mem_cons.1 h with h1 | h1
      · cases hb : bfillOpt rest with
        | nil => rw [hb] at h1; cases h1
        | cons w t =>
          rw [hb] at h1
          have hw : w ∈ bfillOpt rest := by rw [hb]; exact List.mem_cons_self _ _
          exact List.mem_cons_of_mem _ (ih (h1 ▸ hw))
      · exact List.mem_cons_of_mem _ (ih h1)

theorem shiftDown_val {k : Nat} {col : List (Option ℚ)} {o : Option ℚ}
    (h : o ∈ shiftDown k col) : o = none ∨ o ∈ col := by
  rw [shiftDown] at h
  rcases List.mem_append.1 h with h1 | h1
  · exact Or.inl (List.eq_of_mem_replicate h1)
  · exact Or.inr (List.take_subset _ _ h1)

theorem add_derived_cells_from {df : List Row} {sr : SilverRow}
    (h : sr ∈ add_derived_features df) :
    (∃ r ∈ df, sr.meantemp = r.meantemp ∧ sr.humidity = r.humidity ∧
      sr.wind_speed = r.wind_speed ∧ sr.meanpressure = r.meanpressure) ∧
    (∀ v : ℚ, sr.meantemp_lag_1 = some v → ∃ r ∈ df, r.meantemp = some v) ∧
    (∀ v : ℚ, sr.meantemp_lag_7 = some v → ∃ r ∈ df, r.meantemp = some v) := by
  simp only [add_derived_features] at h
  rcases List.mem_map.1 h with ⟨p, hp, rfl⟩
  have hp2 : p.2 ∈ sortByDate df := by
    have hmm : p.2 ∈ (sortByDate df).enum.map Prod.snd := List.mem_map_of_mem _ hp
    rwa [List.enum_map_snd] at hmm
  have hmem : p.2 ∈ df := mem_sortByDate.1 hp2
  refine ⟨⟨p.2, hmem, rfl, rfl, rfl, rfl⟩, ?_, ?_⟩
  all_goals
    intro v hv
    first
      | (cases hg : (bfillOpt (shiftDown 1 ((sortByDate df).map (·.meantemp)))).get? p.1 with
          | none =>
              rw [hg] at hv
              cases hv
          | some o =>
              rw [hg] at hv
              simp only [Option.getD_some] at hv
              subst hv
              have hmem2 := List.get?_mem hg
              rcases shiftDown_val (bfillOpt_val_sub hmem2) with h2 | h2
              · cases h2
              · rcases List.mem_map.1 h2 with ⟨r, hr, hrv⟩
                exact ⟨r, mem_sortByDate.1 hr, hrv⟩)
      | (cases hg : (bfillOpt (shiftDown 7 ((sortByDate df).map (·.meantemp)))).get? p.1 with
          | none =>
              rw [hg] at hv
              cases hv
          | some o =>
              rw [hg] at hv
              simp only [Option.getD_some] at hv
              subst hv
              have hmem2 := List.get?_mem hg
              rcases shiftDown_val (bfillOpt_val_sub hmem2) with h2 | h2
              · cases h2
              · rcases List.mem_map.1 h2 with ⟨r, hr, hrv⟩
                exact ⟨r, mem_sortByDate.1 hr, hrv⟩)

/-- Every cell of the cleaned frame is the 2-decimal rounding of some
rational. -/
theorem cleanedRows_rounded {df : List Row} {r : Row} (hr : r ∈ cleanedRows df)
    (c : Col) {v : ℚ} (hv : r.get c = some v) : ∃ w : ℚ, v = round2 w := by
  simp only [cleanedRows] at hr
  rcases List.mem_map.1 hr with ⟨r0, _, rfl⟩
  rw [roundRow_get] at hv
  rcases Option.map_eq_some'.1 hv with ⟨w, _, hw2⟩
  exact ⟨w, hw2.symm⟩

end DataOps

/-! ## Claim theorems -/

namespace DataOps

/-- C1: for every input dataset that passes validation (no hard-fail
range violation; dates already parsed), the dataset produced by
`clean_data` contains exactly one row per calendar day spanning
`[min date, max date]` of the input — its date column equals the full
daily range — and its dates are strictly increasing, hence free of
duplicates and gaps.  (A dataset that passes validation is non-empty:
pandas `date_range` raises on the all-NaT min/max of an empty frame.) -/
theorem clean_data_dates_full_range (df : List Row) (rep : Report)
    (hne : df ≠ []) (_hok : (run_checks df {}).1 = true) :
    ((clean_data df rep).1).map (·.date) = fullRange (minDate df) (maxDate df) ∧
    List.Pairwise (· < ·) (((clean_data df rep).1).map (·.date)) := by
  have hcov : ((clean_data df rep).1).map (·.date) = fullRange (minDate df) (maxDate df) := by
    rw [clean_data_fst]
    exact cleanedRows_dates df hne
  refine ⟨hcov, ?_⟩
  rw [hcov, fullRange]
  refine List.Pairwise.map _ ?_ (List.pairwise_lt_range _)
  intro a b hab
  omega

def c1winput : List Row :=
  [⟨0, some 20, some 50, some 5, some 1000⟩, ⟨2, some 21, some 55, some 6, some 1001⟩]

/-- Witness for C1 at a concrete two-row input with a gap. -/
theorem clean_data_dates_full_range_witness :
    ((clean_data c1winput {}).1).map (·.date) = fullRange (minDate c1winput) (maxDate c1winput) ∧
    List.Pairwise (· < ·) (((clean_data c1winput {}).1).map (·.date)) :=
  clean_data_dates_full_range c1winput {} (by decide) (by decide)

def c2cexinput : List Row :=
  [⟨0, some 20, some 50, some 99, some 1000⟩, ⟨0, some 21, some 55, some 10, some 1005⟩]

/-- C2, counterexample: this input passes validation and every numeric
column holds at least one non-null in-range value, yet the cleaned
output contains a null: the two rows share a date, deduplication keeps
the first one, whose wind_speed 99 is out of soft range and is nulled,
and no other value remains in that column to impute from. -/
theorem clean_no_nulls_counterexample :
    (run_checks c2cexinput {}).1 = true ∧
    (∀ c : Col, ∃ r ∈ c2cexinput, ∃ v : ℚ, r.get c = some v ∧ inRange c v) ∧
    (clean_data c2cexinput {}).1.map (·.wind_speed) = [none] := by
  refine ⟨by decide, ?_, rfl⟩
  intro c
  cases c
  · exact ⟨_, List.mem_cons_self _ _, 20, rfl, by decide⟩
  · exact ⟨_, List.mem_cons_self _ _, 50, rfl, by decide⟩
  · exact ⟨_, List.mem_cons_of_mem _ (List.mem_cons_self _ _), 10, rfl, by decide⟩
  · exact ⟨_, List.mem_cons_self _ _, 1000, rfl, by decide⟩

/-- C2, amended: for every input dataset that passes validation and in
which each numeric column holds at least one non-null in-range value
*among the first-occurrence-per-date rows kept by deduplication*, the
cleaned output has no null in any numeric column and every value lies
within its configured bounds, hard-fail and soft-fail columns alike. -/
theorem clean_no_nulls_all_in_range (df : List Row) (rep : Report)
    (hok : (run_checks df {}).1 = true)
    (hwit : ∀ c : Col, ∃ r ∈ dedupFirst (sortByDate df),
      ∃ v : ℚ, r.get c = some v ∧ inRange c v) :
    ∀ r' ∈ (clean_data df rep).1, ∀ c : Col,
      ∃ v : ℚ, r'.get c = some v ∧ inRange c v := by
  rw [clean_data_fst]
  exact cleanedRows_cells df hok hwit

def c2winput : List Row := [⟨0, some 20, some 50, some 5, some 1000⟩]

def c2wcleaned : List Row := (clean_data c2winput {}).1

theorem c2wcleaned_ne_nil : c2wcleaned ≠ [] :=
  List.ne_nil_of_length_pos (by rw [show c2wcleaned.length = 1 from rfl]; omega)

def c2wrow : Row := c2wcleaned.head c2wcleaned_ne_nil

/-- Witness for the amended C2 at a concrete one-row input. -/
theorem clean_no_nulls_all_in_range_witness :
    (∃ v : ℚ, c2wrow.get Col.meantemp = some v ∧ inRange Col.meantemp v) ∧
    (∃ v : ℚ, c2wrow.get Col.wind_speed = some v ∧ inRange Col.wind_speed v) :=
  have h := clean_no_nulls_all_in_range c2winput {} (by decide)
    (fun c => by
      cases c
      · exact ⟨_, List.mem_cons_self _ _, 20, rfl, by decide⟩
      · exact ⟨_, List.mem_cons_self _ _, 50, rfl, by decide⟩
      · exact ⟨_, List.mem_cons_self _ _, 5, rfl, by decide⟩
      · exact ⟨_, List.mem_cons_self _ _, 1000, rfl, by decide⟩)
    c2wrow (List.head_mem c2wcleaned_ne_nil)
  ⟨h Col.meantemp, h Col.wind_speed⟩

end DataOps

namespace DataOps

def c3cexinput : List RawRow := [⟨none, some 200, some 50, some 5, some 1000⟩]

/-- C3, counterexample: this input holds a non-null hard-fail violation
(meantemp 200 with bound 55), yet because its date does not parse the
process exits in `load_bronze` before `run_checks`, and no report at all
is persisted — contradicting "only the report is persisted, with
validation_passed equal to false". -/
theorem hard_fail_counterexample :
    (∃ r ∈ c3cexinput, r.meantemp = some 200 ∧ ¬ inRange Col.meantemp 200) ∧
    (runPipeline c3cexinput).exitCode = 1 ∧ (runPipeline c3cexinput).report = none := by
  exact ⟨⟨_, List.mem_cons_self _ _, rfl, by decide⟩, rfl, rfl⟩

/-- C3, amended: for every input dataset whose date values all parse and
that contains at least one non-null value outside the bounds of a
hard-fail column, the run fails: exit status 1, no silver dataset
written, and only the report is persisted, with validation_passed false. -/
theorem hard_fail_aborts_run (input : List RawRow)
    (hdates : ∀ r ∈ input, r.date.isSome)
    (hviol : ∃ r ∈ input.filterMap parseRow?, ∃ c : Col,
      (VALUE_RANGES c).2.2 = true ∧ ∃ v : ℚ, r.get c = some v ∧ ¬ inRange c v) :
    (runPipeline input).exitCode = 1 ∧ (runPipeline input).silver = none ∧
    ∃ rep : Report, (runPipeline input).report = some rep ∧
      rep.validation_passed = some false := by
  have hfail : (run_checks (input.filterMap parseRow?) {}).1 = false := by
    cases hb : (run_checks (input.filterMap parseRow?) {}).1 with
    | false => rfl
    | true =>
      exfalso
      rcases hviol with ⟨r, hr, c, hc, v, hv, hnr⟩
      rcases (run_checks_ok_iff _ _).1 hb c (col_mem_colList c) hc with ⟨h1, h2⟩
      exact hnr ⟨countBelow_eq_zero.1 h1 r hr v hv, countAbove_eq_zero.1 h2 r hr v hv⟩
  rw [runPipeline_checks_fail hdates hfail]
  exact ⟨rfl, rfl, _, rfl, rfl⟩

def c3winput : List RawRow := [⟨some 0, some 200, some 60, some 5, some 1000⟩]

/-- Witness for the amended C3 at a concrete input with meantemp 200. -/
theorem hard_fail_aborts_run_witness :
    (runPipeline c3winput).exitCode = 1 ∧ (runPipeline c3winput).silver = none ∧
    ∃ rep : Report, (runPipeline c3winput).report = some rep ∧
      rep.validation_passed = some false :=
  hard_fail_aborts_run c3winput (by decide)
    ⟨_, List.mem_cons_self _ _, Col.meantemp, rfl, 200, rfl, by decide⟩

def c5cexinput : List RawRow := [⟨none, some 20, some 50, some 5, some 1000⟩]

/-- C5, counterexample: an unparseable date is a fatal validation
failure, but `load_bronze` calls `sys.exit(1)` before any report is
written, so no report file is persisted — contradicting "the report
file is still written" for every fatal validation failure. -/
theorem report_always_written_counterexample :
    (∃ r ∈ c5cexinput, r.date = none) ∧
    (runPipeline c5cexinput).exitCode = 1 ∧ (runPipeline c5cexinput).report = none := by
  exact ⟨⟨_, List.mem_cons_self _ _, rfl⟩, rfl, rfl⟩

/-- C5, amended: on a hard-fail range violation (dates all parseable)
the report is persisted with validation_passed false and exactly the
fields accumulated before the failure (check counts present, cleaning
counts absent); on an unparseable date the process exits non-zero
without writing any report. -/
theorem report_written_on_hard_fail_only (input : List RawRow) :
    ((∃ r ∈ input, r.date = none) → runPipeline input = ⟨1, none, none⟩) ∧
    ((∀ r ∈ input, r.date.isSome) →
      (run_checks (input.filterMap parseRow?) {}).1 = false →
      (runPipeline input).exitCode = 1 ∧ (runPipeline input).silver = none ∧
      ∃ rep : Report, (runPipeline input).report = some rep ∧
        rep.validation_passed = some false ∧ rep.duplicates_found.isSome ∧
        rep.missing_dates.isSome ∧ rep.value_range_violations.isSome ∧
        rep.rows_in = none) := by
  constructor
  · exact fun h => runPipeline_of_bad_date h
  · intro hd hc
    rw [runPipeline_checks_fail hd hc]
    exact ⟨rfl, rfl, _, rfl, rfl, rfl, rfl, rfl, rfl⟩

def c5winputA : List RawRow := [⟨none, some 21, some 51, some 4, some 999⟩]

def c5winputB : List RawRow := [⟨some 3, some 200, some 50, some 5, some 1000⟩]

/-- Witness for the amended C5: both branches at concrete inputs. -/
theorem report_written_on_hard_fail_only_witness :
    runPipeline c5winputA = ⟨1, none, none⟩ ∧
    ((runPipeline c5winputB).exitCode = 1 ∧ (runPipeline c5winputB).silver = none ∧
      ∃ rep : Report, (runPipeline c5winputB).report = some rep ∧
        rep.validation_passed = some false ∧ rep.duplicates_found.isSome ∧
        rep.missing_dates.isSome ∧ rep.value_range_violations.isSome ∧
        rep.rows_in = none) :=
  ⟨(report_written_on_hard_fail_only c5winputA).1 ⟨_, List.mem_cons_self _ _, rfl⟩,
   (report_written_on_hard_fail_only c5winputB).2 (by decide) (by decide)⟩

/-- A hard-fail cell is acceptable to `run_checks` iff it is null or in
range. -/
def hardCellOk (c : Col) (o : Option ℚ) : Prop :=
  o = none ∨ ∃ v : ℚ, o = some v ∧ inRange c v

instance (c : Col) (o : Option ℚ) : Decidable (hardCellOk c o) :=
  match o with
  | none => isTrue (Or.inl rfl)
  | some v =>
    decidable_of_iff (inRange c v) (by
      constructor
      · intro h
        exact Or.inr ⟨v, rfl, h⟩
      · rintro (h | ⟨w, hw, h2⟩)
        · cases h
        · cases hw
          exact h2)

def c9cexinput : List RawRow := []

/-- C9, counterexample: the empty input (a header-only bronze file)
satisfies the claim's hypothesis vacuously — its hard-fail columns hold
nothing but nulls and in-range values — yet the run aborts instead of
passing validation: `run_checks` raises at `pd.date_range(NaT, NaT)`
(validate.py:90) and the process dies with exit code 1, no silver
dataset and no report. -/
theorem nulls_never_range_violations_counterexample :
    (∀ r ∈ c9cexinput, r.date.isSome) ∧
    (∀ r ∈ c9cexinput.filterMap parseRow?, ∀ c : Col,
      (VALUE_RANGES c).2.2 = true → hardCellOk c (r.get c)) ∧
    runPipeline c9cexinput = ⟨1, none, none⟩ :=
  ⟨by decide, by decide, rfl⟩

/-- C9, amended: range validation treats nulls as within range — an
input with at least one data row whose hard-fail columns hold only
nulls and in-range values passes the checks, and the pipeline
completes (exit 0, silver written), imputing the nulls during cleaning
instead of aborting; the empty input instead dies in the
date-continuity check. -/
theorem nulls_never_range_violations (input : List RawRow)
    (hne : input ≠ [])
    (hdates : ∀ r ∈ input, r.date.isSome)
    (hhard : ∀ r ∈ input.filterMap parseRow?, ∀ c : Col,
      (VALUE_RANGES c).2.2 = true → hardCellOk c (r.get c)) :
    (run_checks (input.filterMap parseRow?) {}).1 = true ∧
    (runPipeline input).exitCode = 0 ∧ (runPipeline input).silver.isSome := by
  have hpne : input.filterMap parseRow? ≠ [] := by
    rcases List.exists_mem_of_ne_nil input hne with ⟨r0, hr0⟩
    have h1 := hdates r0 hr0
    intro hcontra
    cases hd : r0.date with
    | none => rw [hd] at h1; cases h1
    | some d =>
      have hmem : (⟨d, r0.meantemp, r0.humidity, r0.wind_speed, r0.meanpressure⟩ : Row) ∈
          input.filterMap parseRow? :=
        List.mem_filterMap.2 ⟨r0, hr0, by rw [parseRow?, hd]; rfl⟩
      rw [hcontra] at hmem
      cases hmem
  have hok : (run_checks (input.filterMap parseRow?) {}).1 = true := by
    rw [run_checks_ok_iff]
    intro c _ hc
    constructor
    · rw [countBelow_eq_zero]
      intro r hr v hv
      rcases hhard r hr c hc with h | ⟨w, hw, h2⟩
      · rw [hv] at h; cases h
      · rw [hv] at hw
        cases hw
        exact h2.1
    · rw [countAbove_eq_zero]
      intro r hr v hv
      rcases hhard r hr c hc with h | ⟨w, hw, h2⟩
      · rw [hv] at h; cases h
      · rw [hv] at hw
        cases hw
        exact h2.2
  rw [runPipeline_checks_pass hdates hpne hok]
  exact ⟨hok, rfl, rfl⟩

def c9winput : List RawRow :=
  [⟨some 0, none, some 50, some 5, some 1000⟩,
   ⟨some 1, some 20, none, some 6, some 1001⟩]

/-- Witness for C9 at a concrete input with nulls in both hard columns. -/
theorem nulls_never_range_violations_witness :
    (run_checks (c9winput.filterMap parseRow?) {}).1 = true ∧
    (runPipeline c9winput).exitCode = 0 ∧ (runPipeline c9winput).silver.isSome :=
  nulls_never_range_violations c9winput (by decide) (by decide) (by decide)

end DataOps

namespace DataOps

/-- C4: for every dataset whose meantemp column has no nulls (and which
is non-empty, as every cleaned dataset is), `create_target` yields
`target[i] = meantemp[i+1]` for every row `i`, with row `i` otherwise
unchanged, and exactly one row — the final one, which has no
successor — is dropped. -/
theorem create_target_next_day {α : Type} (mt : α → Option ℚ) (df : List α)
    (hne : df ≠ []) (hall : ∀ a ∈ df, (mt a).isSome) :
    (create_target mt df).length + 1 = df.length ∧
    ∀ i : Nat, (create_target mt df).get? i =
      (df.get? i).bind fun a => (df.get? (i + 1)).map fun b => (a, mt b) := by
  rw [create_target_eq mt df hall]
  constructor
  · rw [List.length_zipWith, List.length_tail]
    cases df with
    | nil => exact absurd rfl hne
    | cons a t => simp only [List.length_cons]; omega
  · intro i
    rw [zipWith_get?, tail_get?]

def c4wcol : List (Option ℚ) := [some 10, some 12]

/-- Witness for C4 at a concrete two-row column. -/
theorem create_target_next_day_witness :
    (create_target (fun o : Option ℚ => o) c4wcol).length + 1 = c4wcol.length ∧
    (create_target (fun o : Option ℚ => o) c4wcol).get? 0 =
      (c4wcol.get? 0).bind fun a => (c4wcol.get? 1).map fun b => (a, b) :=
  have h := create_target_next_day (fun o : Option ℚ => o) c4wcol (by decide) (by decide)
  ⟨h.1, h.2 0⟩

def c7cexinput : List RawRow :=
  [⟨some 0, some 0, some 50, some 5, some 1000⟩,
   ⟨some 1, some 1, some 50, some 5, some 1000⟩,
   ⟨some 2, some 1, some 50, some 5, some 1000⟩]

/-- C7, counterexample: the rolling-mean column is computed *after* the
2-decimal rounding of `clean_data` and is itself never rounded; with
cleaned temperatures 0, 1, 1 the third rolling mean is 2/3, which has
no finite 2-decimal representation, yet it is part of the written
silver output. -/
theorem derived_rounding_counterexample :
    ∃ silver, (runPipeline c7cexinput).silver = some silver ∧
      ∃ sr ∈ silver, ∃ v : ℚ, sr.meantemp_rolling_7d = some v ∧ ¬ isRounded2 v := by
  refine ⟨_, rfl, ?_⟩
  refine ⟨_, List.mem_cons_of_mem _ (List.mem_cons_of_mem _ (List.mem_cons_self _ _)), ?_⟩
  refine ⟨_, rfl, ?_⟩
  show ¬ isRounded2 ((round2 0 + (round2 1 + (round2 1 + 0))) / ((3 : ℕ) : ℚ))
  have h0 : round2 (0 : ℚ) = 0 := round2_eq_self 0 (by norm_num)
  have h1 : round2 (1 : ℚ) = 1 := round2_eq_self 100 (by norm_num)
  rw [h0, h1]
  rintro ⟨n, hn⟩
  norm_num at hn
  have h3 : (200 : ℚ) = 3 * (n : ℚ) := by
    field_simp at hn
    linarith
  have h4 : (200 : ℤ) = 3 * n := by exact_mod_cast h3
  omega

/-- C7, amended: in the written silver output, the original measurement
columns and the two lag columns hold only 2-decimal values (and
day-of-year is an integer by construction); the rolling-mean column,
computed after rounding, is exempt. -/
theorem derived_columns_rounded (input : List Row) (rep : Report) :
    ∀ sr ∈ add_derived_features (clean_data input rep).1,
      (∀ v : ℚ, sr.meantemp = some v → isRounded2 v) ∧
      (∀ v : ℚ, sr.humidity = some v → isRounded2 v) ∧
      (∀ v : ℚ, sr.wind_speed = some v → isRounded2 v) ∧
      (∀ v : ℚ, sr.meanpressure = some v → isRounded2 v) ∧
      (∀ v : ℚ, sr.meantemp_lag_1 = some v → isRounded2 v) ∧
      (∀ v : ℚ, sr.meantemp_lag_7 = some v → isRounded2 v) := by
  intro sr hsr
  rw [clean_data_fst] at hsr
  rcases add_derived_cells_from hsr with ⟨⟨r, hr, hm, hh, hw, hp⟩, hlag1, hlag7⟩
  have hcell : ∀ (c : Col) (v : ℚ), r.get c = some v → isRounded2 v := by
    intro c v hv
    rcases cleanedRows_rounded hr c hv with ⟨w, rfl⟩
    exact isRounded2_round2 w
  have hmt : ∀ v : ℚ, ∀ r' ∈ cleanedRows input, r'.meantemp = some v → isRounded2 v := by
    intro v r' hr' hv
    rcases cleanedRows_rounded hr' Col.meantemp hv with ⟨w, rfl⟩
    exact isRounded2_round2 w
  refine ⟨?_, ?_, ?_, ?_, ?_, ?_⟩
  · intro v hv
    rw [hm] at hv
    exact hcell Col.meantemp v hv
  · intro v hv
    rw [hh] at hv
    exact hcell Col.humidity v hv
  · intro v hv
    rw [hw] at hv
    exact hcell Col.wind_speed v hv
  · intro v hv
    rw [hp] at hv
    exact hcell Col.meanpressure v hv
  · intro v hv
    rcases hlag1 v hv with ⟨r2, hr2, hrv⟩
    exact hmt v r2 hr2 hrv
  · intro v hv
    rcases hlag7 v hv with ⟨r2, hr2, hrv⟩
    exact hmt v r2 hr2 hrv

def c7winput : List Row := [⟨0, some 10, some 50, some 5, some 1000⟩]

def c7wsilver : List SilverRow := add_derived_features (clean_data c7winput {}).1

theorem c7wsilver_ne_nil : c7wsilver ≠ [] :=
  List.ne_nil_of_length_pos (by rw [show c7wsilver.length = 1 from rfl]; omega)

def c7wrow : SilverRow := c7wsilver.head c7wsilver_ne_nil

/-- Witness for the amended C7 at a concrete one-row input. -/
theorem derived_columns_rounded_witness :
    c7wrow.meantemp = some (round2 10) ∧ isRounded2 (round2 10) :=
  have h := derived_columns_rounded c7winput {} c7wrow (List.head_mem c7wsilver_ne_nil)
  ⟨rfl, h.1 (round2 10) rfl⟩

end DataOps

namespace DataOps

/-- Every id the ingestion ledger ever records is in 1..5: the range
check precedes any write, so ledgers produced by ingest.py satisfy the
invariant assumed by the idempotency claim. -/
theorem ingest_main_ledger_invariant (batchId : Nat)
    (files : Nat → Option (List String)) (s : IngestState)
    (hinv : ∀ i ∈ s.ledger.getD [], 1 ≤ i ∧ i ≤ 5) :
    ∀ i ∈ (ingest_main batchId files s).state.ledger.getD [], 1 ≤ i ∧ i ≤ 5 := by
  simp only [ingest_main]
  split_ifs with h1 h2
  · exact hinv
  · exact hinv
  · push_neg at h1
    cases hf : files batchId with
    | none => exact hinv
    | some lines =>
      cases lines with
      | nil =>
        intro i hi
        simp only [Option.getD_some] at hi
        rcases List.mem_append.1 hi with hi | hi
        · exact hinv i hi
        · rw [List.mem_singleton.1 hi]
          omega
      | cons hd tl =>
        intro i hi
        simp only [Option.getD_some] at hi
        rcases List.mem_append.1 hi with hi | hi
        · exact hinv i hi
        · rw [List.mem_singleton.1 hi]
          omega

/-- C8: re-running ingestion with a batch id already present in the
ledger is a no-op: bronze and ledger are unchanged byte for byte, the
skip is logged, and the process exits with success.  (Ledgers written
by ingest.py only hold ids in 1..5 — see
`ingest_main_ledger_invariant` — so the id passes the range check.) -/
theorem ingest_already_processed_noop (batchId : Nat)
    (files : Nat → Option (List String)) (s : IngestState)
    (hin : batchId ∈ s.ledger.getD [])
    (hinv : ∀ i ∈ s.ledger.getD [], 1 ≤ i ∧ i ≤ 5) :
    ingest_main batchId files s = ⟨s, true, true⟩ := by
  have hrange := hinv batchId hin
  simp only [ingest_main]
  rw [if_neg (by omega), if_pos hin]

def c8wstate : IngestState :=
  ⟨some ["date,meantemp", "2020-01-01,20"], some [1, 2]⟩

/-- Witness for C8: skipping batch 2, which the ledger already lists. -/
theorem ingest_already_processed_noop_witness :
    ingest_main 2 (fun _ => none) c8wstate = ⟨c8wstate, true, true⟩ :=
  ingest_already_processed_noop 2 (fun _ => none) c8wstate (by decide) (by decide)

/-- C10: for an unprocessed batch id whose batch file exists but is
empty, ingestion records the id in the ledger and exits successfully
with the bronze dataset untouched, and every subsequent run with that
id (whatever the batch directory then holds) short-circuits as already
processed. -/
theorem ingest_empty_batch_records_id (batchId : Nat)
    (files : Nat → Option (List String)) (s : IngestState)
    (hrange : 1 ≤ batchId ∧ batchId ≤ 5)
    (hnot : batchId ∉ s.ledger.getD [])
    (hempty : files batchId = some []) :
    ingest_main batchId files s =
      ⟨⟨s.bronze, some (s.ledger.getD [] ++ [batchId])⟩, true, false⟩ ∧
    ∀ files' : Nat → Option (List String),
      ingest_main batchId files' (ingest_main batchId files s).state =
        ⟨(ingest_main batchId files s).state, true, true⟩ := by
  have h1 : ingest_main batchId files s =
      ⟨⟨s.bronze, some (s.ledger.getD [] ++ [batchId])⟩, true, false⟩ := by
    simp only [ingest_main]
    rw [if_neg (by omega), if_neg hnot, hempty]
  refine ⟨h1, fun files' => ?_⟩
  rw [h1]
  have hmem : batchId ∈
      (IngestState.mk s.bronze (some (s.ledger.getD [] ++ [batchId]))).ledger.getD [] := by
    simp only [Option.getD_some]
    exact List.mem_append.2 (Or.inr (List.mem_singleton.2 rfl))
  simp only [ingest_main]
  rw [if_neg (by omega), if_pos hmem]

def c10wfiles : Nat → Option (List String) := fun i => if i = 3 then some [] else none

def c10wstate : IngestState := ⟨some ["date,meantemp"], some [1]⟩

/-- Witness for C10: ingesting the empty batch 3, then re-running. -/
theorem ingest_empty_batch_records_id_witness :
    ingest_main 3 c10wfiles c10wstate =
      ⟨⟨c10wstate.bronze, some (c10wstate.ledger.getD [] ++ [3])⟩, true, false⟩ ∧
    ingest_main 3 (fun _ => none) (ingest_main 3 c10wfiles c10wstate).state =
      ⟨(ingest_main 3 c10wfiles c10wstate).state, true, true⟩ :=
  have h := ingest_empty_batch_records_id 3 c10wfiles c10wstate (by decide) (by decide) (by decide)
  ⟨h.1, h.2 (fun _ => none)⟩

end DataOps
